import Mathlib

/-!
Verification of the `routesum` repository's radix-2 summarization trie
(`pkg/routesum/rstrie/rstrie.go`) and of the text-insertion facade
(`routesum.go`).

Bit-sequences (`bitslice.BitSlice`, a byte slice holding one bit per byte)
are embedded as `List Bool` (`false` = 0, `true` = 1).

A trie node (`type node struct { children *[2]*node; bits bitslice.BitSlice }`)
has either a nil `children` pointer (a leaf) or a pointer to a two-slot
array.  Every write of the `children` field in the source either sets it
to nil or installs an array with both slots populated
(`splitNodeForRoute` fills both slots before the node is linked in, and
the only per-slot assignment overwrites an occupied slot), so the
embedding represents a node as either a leaf or an inner node with two
children.
-/

inductive Node : Type where
  | leaf (bits : List Bool) : Node
  | inner (bits : List Bool) (c0 c1 : Node) : Node
deriving DecidableEq, Repr

/-- The `bits` field of a node. -/
def Node.bits : Node → List Bool
  | .leaf b => b
  | .inner b _ _ => b

/-- `func (n *node) isLeaf() bool { return n.children == nil }` -/
def Node.isLeaf : Node → Bool
  | .leaf _ => true
  | .inner _ _ _ => false

/-- Replace the `bits` field, keeping the children (the in-place
`oldNode.bits = oldNode.bits[commonBitsLen:]` mutation). -/
def Node.withBits : Node → List Bool → Node
  | .leaf _, b => .leaf b
  | .inner _ c0 c1, b => .inner b c0 c1

/-- `func commonPrefixLen(a, b bitslice.BitSlice) int`: the loop counts the
leading positions at which `a` and `b` agree, stopping at the shorter
length or at the first disagreement. -/
def commonPrefixLen : List Bool → List Bool → Nat
  | x :: xs, y :: ys => if x = y then commonPrefixLen xs ys + 1 else 0
  | _, _ => 0

/-- `func (n *node) childrenAreCompleteSubtrie() bool` -/
def childrenAreCompleteSubtrie : Node → Bool
  | .leaf _ => false
  | .inner _ c0 c1 =>
    c0.isLeaf && c1.isLeaf && (c0.bits.length == 1) && (c1.bits.length == 1)

/-- An indexed assignment `slots[b] = c` into a two-slot child array
(slot 0, slot 1). -/
def setSlot (p : Node × Node) (b : Bool) (c : Node) : Node × Node :=
  if b then (p.1, c) else (c, p.2)

/-- Read slot `b` of a two-slot child array. -/
def getSlot (p : Node × Node) (b : Bool) : Node :=
  if b then p.2 else p.1

/-- Build an inner node from a fully populated slot array. -/
def mkInner (bits : List Bool) (p : Node × Node) : Node :=
  .inner bits p.1 p.2

/-- `func splitNodeForRoute(oldNode *node, routeBits bitslice.BitSlice) *node`.
The source allocates a zero-valued two-slot array (modelled by the two
placeholder `.leaf []` entries) and then performs the two indexed
assignments `newNode.children[routeNode.bits[0]] = routeNode` and
`newNode.children[oldNode.bits[0]] = oldNode`. -/
def splitNodeForRoute (oldNode : Node) (routeBits : List Bool) : Node :=
  let commonBitsLen := commonPrefixLen (Node.bits oldNode) routeBits
  let commonBits := (Node.bits oldNode).take commonBitsLen
  let routeNode : Node := .leaf (routeBits.drop commonBitsLen)
  let oldNode' := oldNode.withBits ((Node.bits oldNode).drop commonBitsLen)
  let slots :=
    setSlot (setSlot (.leaf [], .leaf []) (Node.bits routeNode).headI routeNode)
      (Node.bits oldNode').headI oldNode'
  mkInner commonBits slots

/-- The outcome of processing the subtree rooted at the visited node, as
seen by the parent stack frame of the non-recursive loop in
`InsertRoute`:
* `done n` — the loop returned without running `simplifyVisitedSubtries`
  (the covered/covering cases), or the pass has already stopped at a
  lower ancestor; `n` replaces the visited node in place.
* `simplifyInPlace n` — the visited node was updated in place (the
  single-bit-divergence shortcut) and `simplifyVisitedSubtries` is still
  walking up the visited stack.
* `simplifyReplaced n` — the visited node was replaced by the new node
  from `splitNodeForRoute`, installed in the parent at slot `n.bits[0]`
  (`visited[visitedLen-1].children[newNode.bits[0]] = newNode`), and
  `simplifyVisitedSubtries` is still walking up. -/
inductive Res : Type where
  | done (n : Node) : Res
  | simplifyInPlace (n : Node) : Res
  | simplifyReplaced (n : Node) : Res
deriving DecidableEq, Repr

/-- The node carried by a `Res`. -/
def resNode : Res → Node
  | .done n => n
  | .simplifyInPlace n => n
  | .simplifyReplaced n => n

/-- One step of `simplifyVisitedSubtries` at a visited ancestor whose
children, after the update below it, are `p`.  Mirrors the loop body: a
leaf stops the pass, a node whose children form a complete subtrie has
its children cleared and the pass continues, anything else stops the
pass. -/
def simplifyStep (nbits : List Bool) (p : Node × Node) : Res :=
  let n' := mkInner nbits p
  if n'.isLeaf then .done n'
  else if childrenAreCompleteSubtrie n' then .simplifyInPlace (.leaf nbits)
  else .done n'

/-- The parent frame of the descent: install the child's result into slot
`b` (`done`/`simplifyInPlace` update the existing child in place, so it
stays in the slot it occupied; `simplifyReplaced c` is installed at slot
`c.bits[0]` as in the source) and, if the collapse pass is running, apply
`simplifyStep` to this node. -/
def processChild (nbits : List Bool) (c0 c1 : Node) (b : Bool) : Res → Res
  | .done c => .done (mkInner nbits (setSlot (c0, c1) b c))
  | .simplifyInPlace c => simplifyStep nbits (setSlot (c0, c1) b c)
  | .simplifyReplaced c => simplifyStep nbits (setSlot (c0, c1) (Node.bits c).headI c)

/-- The loop of `func (t *RSTrie) InsertRoute(routeBits bitslice.BitSlice)`
at one visited node, in recursive form (the explicit `visited` stack of
the source becomes the call stack; `Res` tells each frame whether
`simplifyVisitedSubtries` is still running).  The four branches are, in
source order:
1. the requested route covers the current node: truncate it to the
   remaining bits and demote it to a leaf, returning with no pass;
2. the current node covers the requested route (leaf) — no-op — or the
   search descends to `children[remainingRouteBits[0]]`;
3. divergence at a leaf differing only in the last bit: the shortcut
   shortens the node's bits by one in place (the `int` subtraction
   `len(curNode.bits)-1` of the source is kept by computing in `Int`);
4. otherwise the node is split by `splitNodeForRoute`. -/
def insertNode : Node → List Bool → Res
  | .leaf nbits, remaining =>
    if remaining.length ≤ nbits.length ∧ remaining.isPrefixOf nbits then
      .done (.leaf remaining)
    else if nbits.length ≤ remaining.length ∧ nbits.isPrefixOf remaining then
      .done (.leaf nbits)
    else if nbits.length = remaining.length ∧
        (commonPrefixLen nbits remaining : Int) = (nbits.length : Int) - 1 then
      .simplifyInPlace (.leaf (nbits.take (nbits.length - 1)))
    else
      .simplifyReplaced (splitNodeForRoute (.leaf nbits) remaining)
  | .inner nbits c0 c1, remaining =>
    if remaining.length ≤ nbits.length ∧ remaining.isPrefixOf nbits then
      .done (.leaf remaining)
    else if nbits.length ≤ remaining.length ∧ nbits.isPrefixOf remaining then
      let rest := remaining.drop nbits.length
      let b := rest.headI
      processChild nbits c0 c1 b
        (if b then insertNode c1 rest else insertNode c0 rest)
    else
      .simplifyReplaced (splitNodeForRoute (.inner nbits c0 c1) remaining)

/-- `InsertRoute` on the trie (`RSTrie.root` is the `Option Node`): an
empty trie gets a fresh leaf root; otherwise the result of the loop
replaces the root (in the `simplifyReplaced` case this is the
`t.root = newNode` assignment of the source). -/
def insertRoute (t : Option Node) (routeBits : List Bool) : Option Node :=
  match t with
  | none => some (.leaf routeBits)
  | some root => some (resNode (insertNode root routeBits))

/-- Number of nodes of a subtree (used as the termination measure of the
`Contents` work-list loop). -/
def Node.size : Node → Nat
  | .leaf _ => 1
  | .inner _ c0 c1 => 1 + c0.size + c1.size

/-- `type traversalStep struct` of the source. -/
structure TraversalStep : Type where
  n : Node
  precedingRouteBits : List Bool

/-- The work-list loop of `func (t *RSTrie) Contents()`: pop the front
step, emit `precedingRouteBits ++ bits` at a leaf, and otherwise prepend
the two children (0-slot first) to the list. -/
def contentsLoop : List TraversalStep → List (List Bool)
  | [] => []
  | ⟨n, pre⟩ :: rest =>
    let stepRouteBits := pre ++ n.bits
    match n with
    | .leaf _ => stepRouteBits :: contentsLoop rest
    | .inner _ c0 c1 =>
      contentsLoop (⟨c0, stepRouteBits⟩ :: ⟨c1, stepRouteBits⟩ :: rest)
termination_by queue => (queue.map fun s => s.n.size).sum
decreasing_by
  all_goals simp [Node.size]
  all_goals omega

/-- `Contents` of the trie: empty list for an empty trie, otherwise the
work-list traversal seeded with the root and no preceding bits. -/
def contents (t : Option Node) : List (List Bool) :=
  match t with
  | none => []
  | some root => contentsLoop [⟨root, []⟩]

/-- Specification-side traversal: depth-first pre-order with the 0-child
visited before the 1-child, accumulating the concatenation of ancestor
labels.  The work-list loop of the source is proved equal to it below. -/
def dfsContents (pre : List Bool) : Node → List (List Bool)
  | .leaf b => [pre ++ b]
  | .inner b c0 c1 => dfsContents (pre ++ b) c0 ++ dfsContents (pre ++ b) c1

/-- Specification-side `Contents`, via `dfsContents`. -/
def contentsDFS (t : Option Node) : List (List Bool) :=
  match t with
  | none => []
  | some root => dfsContents [] root

theorem contentsLoop_eq_flatMap (queue : List TraversalStep) :
    contentsLoop queue =
      queue.flatMap (fun s => dfsContents s.precedingRouteBits s.n) := by
  induction queue using contentsLoop.induct
  all_goals simp_all [contentsLoop, dfsContents, Node.bits]
  all_goals assumption

/-- The work-list `Contents` computes the depth-first pre-order listing. -/
theorem contents_eq_contentsDFS (t : Option Node) :
    contents t = contentsDFS t := by
  cases t with
  | none => rfl
  | some root => simp [contents, contentsDFS, contentsLoop_eq_flatMap]


/-! ### Basic simp lemmas for the embedding -/

@[simp] theorem bits_leaf (b : List Bool) : Node.bits (.leaf b) = b := rfl

@[simp] theorem bits_inner (b : List Bool) (c0 c1 : Node) :
    Node.bits (.inner b c0 c1) = b := rfl

@[simp] theorem resNode_done (n : Node) : resNode (.done n) = n := rfl

@[simp] theorem resNode_inPlace (n : Node) : resNode (.simplifyInPlace n) = n := rfl

@[simp] theorem resNode_replaced (n : Node) : resNode (.simplifyReplaced n) = n := rfl

@[simp] theorem withBits_bits (n : Node) (b : List Bool) :
    Node.bits (n.withBits b) = b := by cases n <;> rfl

/-! ### Facts about `commonPrefixLen` -/

theorem commonPrefixLen_comm : ∀ a b : List Bool, commonPrefixLen a b = commonPrefixLen b a
  | [], [] => rfl
  | [], _ :: _ => rfl
  | _ :: _, [] => rfl
  | x :: xs, y :: ys => by
    simp only [commonPrefixLen]
    rcases eq_or_ne x y with h | h
    · simp [h, commonPrefixLen_comm xs ys]
    · simp [h, Ne.symm h]

theorem commonPrefixLen_le_left : ∀ a b : List Bool, commonPrefixLen a b ≤ a.length
  | [], _ => by simp [commonPrefixLen]
  | _ :: _, [] => by simp [commonPrefixLen]
  | x :: xs, y :: ys => by
    simp only [commonPrefixLen]
    rcases eq_or_ne x y with h | h
    · simpa [h] using commonPrefixLen_le_left xs ys
    · simp [h]

theorem commonPrefixLen_le_right (a b : List Bool) :
    commonPrefixLen a b ≤ b.length := by
  rw [commonPrefixLen_comm]; exact commonPrefixLen_le_left b a

theorem take_commonPrefixLen_eq : ∀ a b : List Bool,
    a.take (commonPrefixLen a b) = b.take (commonPrefixLen a b)
  | [], _ => by simp [commonPrefixLen]
  | _ :: _, [] => by simp [commonPrefixLen]
  | x :: xs, y :: ys => by
    simp only [commonPrefixLen]
    rcases eq_or_ne x y with h | h
    · simp [h, take_commonPrefixLen_eq xs ys]
    · simp [h]

theorem prefix_of_commonPrefixLen_eq_length :
    ∀ a b : List Bool, commonPrefixLen a b = a.length → a <+: b
  | [], _, _ => List.nil_prefix
  | _ :: _, [], h => by simp [commonPrefixLen] at h
  | x :: xs, y :: ys, h => by
    by_cases he : x = y
    · subst he
      simp only [commonPrefixLen, eq_self_iff_true, if_true, List.length_cons] at h
      exact List.cons_prefix_cons.mpr ⟨rfl, prefix_of_commonPrefixLen_eq_length xs ys (by omega)⟩
    · simp [commonPrefixLen, he] at h
  
theorem one_le_commonPrefixLen :
    ∀ a b : List Bool, a ≠ [] → b ≠ [] → a.headI = b.headI → 1 ≤ commonPrefixLen a b
  | [], _, ha, _, _ => absurd rfl ha
  | _ :: _, [], _, hb, _ => absurd rfl hb
  | x :: xs, y :: ys, _, _, h => by
    simp only [List.headI] at h
    simp [commonPrefixLen, h]

theorem headI_drop_commonPrefixLen_ne :
    ∀ a b : List Bool, commonPrefixLen a b < a.length → commonPrefixLen a b < b.length →
      (a.drop (commonPrefixLen a b)).headI ≠ (b.drop (commonPrefixLen a b)).headI
  | [], _, h1, _ => by simp [commonPrefixLen] at h1
  | _ :: _, [], _, h2 => by simp [commonPrefixLen] at h2
  | x :: xs, y :: ys, h1, h2 => by
    by_cases he : x = y
    · subst he
      simp only [commonPrefixLen, eq_self_iff_true, if_true, List.length_cons] at h1 h2 ⊢
      rw [List.drop_succ_cons, List.drop_succ_cons]
      exact headI_drop_commonPrefixLen_ne xs ys (by omega) (by omega)
    · simp [commonPrefixLen, he]

theorem headI_take_pos (a : List Bool) (n : Nat) (h : 1 ≤ n) :
    (a.take n).headI = a.headI := by
  cases a with
  | nil => simp
  | cons x xs => cases n with
    | zero => omega
    | succ m => simp

theorem take_pos_ne_nil (a : List Bool) (n : Nat) (h : 1 ≤ n) (ha : a ≠ []) :
    a.take n ≠ [] := by
  cases a with
  | nil => exact absurd rfl ha
  | cons x xs => cases n with
    | zero => omega
    | succ m => simp

theorem drop_lt_ne_nil (a : List Bool) (n : Nat) (h : n < a.length) :
    a.drop n ≠ [] := by
  intro hcon
  have := List.drop_eq_nil_iff.mp hcon
  omega

/-! ### The structural invariant -/

/-- Well-formedness of a subtree, as maintained by the source for every
node reachable from the root: each child's label is non-empty and starts
with the bit of the slot it occupies.  (The root's own label is not
constrained; it can be empty.) -/
def wfUnder : Node → Bool
  | .leaf _ => true
  | .inner _ c0 c1 =>
    (!c0.bits.isEmpty) && (!c1.bits.isEmpty) &&
    (c0.bits.headI == false) && (c1.bits.headI == true) &&
    wfUnder c0 && wfUnder c1

/-- Trie states reachable by a sequence of `InsertRoute` calls with
non-empty bit-sequences, starting from the empty trie. -/
inductive Reachable : Option Node → Prop where
  | empty : Reachable none
  | step {t : Option Node} {bits : List Bool} :
      Reachable t → bits ≠ [] → Reachable (insertRoute t bits)

@[simp] theorem wfUnder_leaf (b : List Bool) : wfUnder (.leaf b) = true := rfl

theorem wfUnder_withBits (n : Node) (b : List Bool) :
    wfUnder (n.withBits b) = wfUnder n := by
  cases n <;> rfl

theorem isPrefixOf_true_iff : ∀ a b : List Bool, a.isPrefixOf b = true ↔ a <+: b
  | [], _ => by simp [List.isPrefixOf, List.nil_prefix]
  | _ :: _, [] => by
    constructor
    · intro h
      simp [List.isPrefixOf] at h
    · intro h
      have := h.length_le
      simp at this
  | x :: xs, y :: ys => by
    simp only [List.isPrefixOf, List.cons_prefix_cons, Bool.and_eq_true, beq_iff_eq]
    exact and_congr Iff.rfl (isPrefixOf_true_iff xs ys)

/-- In the divergence branch (neither covering test fired), the common
prefix is strictly shorter than both bit-sequences. -/
theorem commonPrefixLen_lt_of_diverge (nbits remaining : List Bool)
    (h1 : ¬(remaining.length ≤ nbits.length ∧ remaining.isPrefixOf nbits = true))
    (h2 : ¬(nbits.length ≤ remaining.length ∧ nbits.isPrefixOf remaining = true)) :
    commonPrefixLen nbits remaining < nbits.length ∧
      commonPrefixLen nbits remaining < remaining.length := by
  constructor
  · rcases Nat.lt_or_ge (commonPrefixLen nbits remaining) nbits.length with h | h
    · exact h
    · exfalso
      have heq : commonPrefixLen nbits remaining = nbits.length :=
        le_antisymm (commonPrefixLen_le_left nbits remaining) h
      have hp : nbits <+: remaining := prefix_of_commonPrefixLen_eq_length _ _ heq
      exact h2 ⟨hp.length_le, (isPrefixOf_true_iff _ _).mpr hp⟩
  · rcases Nat.lt_or_ge (commonPrefixLen nbits remaining) remaining.length with h | h
    · exact h
    · exfalso
      have heq : commonPrefixLen remaining nbits = remaining.length := by
        rw [commonPrefixLen_comm]
        exact le_antisymm (commonPrefixLen_le_right nbits remaining) h
      have hp : remaining <+: nbits := prefix_of_commonPrefixLen_eq_length _ _ heq
      exact h1 ⟨hp.length_le, (isPrefixOf_true_iff _ _).mpr hp⟩

/-- The node built by `splitNodeForRoute` in the divergence case: its
label is the common prefix, and its two slots hold the relabeled old
node and the fresh route leaf, each in the slot of its first bit. -/
theorem wfUnder_splitNodeForRoute (n : Node) (remaining : List Bool)
    (hL1 : commonPrefixLen (Node.bits n) remaining < (Node.bits n).length)
    (hL2 : commonPrefixLen (Node.bits n) remaining < remaining.length)
    (hwf : wfUnder n = true) :
    wfUnder (splitNodeForRoute n remaining) = true ∧
      Node.bits (splitNodeForRoute n remaining) =
        (Node.bits n).take (commonPrefixLen (Node.bits n) remaining) := by
  have hne := headI_drop_commonPrefixLen_ne (Node.bits n) remaining hL1 hL2
  have hdn : (Node.bits n).drop (commonPrefixLen (Node.bits n) remaining) ≠ [] :=
    drop_lt_ne_nil _ _ hL1
  have hdr : remaining.drop (commonPrefixLen (Node.bits n) remaining) ≠ [] :=
    drop_lt_ne_nil _ _ hL2
  unfold splitNodeForRoute
  rcases hb : (remaining.drop (commonPrefixLen (Node.bits n) remaining)).headI with _ | _
  all_goals
    rcases hb' : ((Node.bits n).drop (commonPrefixLen (Node.bits n) remaining)).headI with _ | _
  · rw [hb, hb'] at hne
    exact absurd rfl hne
  all_goals
    simp only [withBits_bits, hb, hb', setSlot, mkInner, wfUnder, if_true, if_false,
      Bool.false_eq_true, bits_leaf]
  · simp [wfUnder_withBits n _, hwf, hdn, hdr, hb, hb', List.isEmpty_iff]
  · simp [wfUnder_withBits n _, hwf, hdn, hdr, hb, hb', List.isEmpty_iff]
  · rw [hb, hb'] at hne
    exact absurd rfl hne

theorem wfUnder_processChild (nbits : List Bool) (c0 c1 : Node) (b : Bool) (r : Res)
    (hwf0 : wfUnder c0 = true) (h0ne : Node.bits c0 ≠ []) (h0h : (Node.bits c0).headI = false)
    (hwf1 : wfUnder c1 = true) (h1ne : Node.bits c1 ≠ []) (h1h : (Node.bits c1).headI = true)
    (hr : wfUnder (resNode r) = true) (hrne : Node.bits (resNode r) ≠ [])
    (hrh : (Node.bits (resNode r)).headI = b) :
    wfUnder (resNode (processChild nbits c0 c1 b r)) = true ∧
      Node.bits (resNode (processChild nbits c0 c1 b r)) = nbits := by
  have inner_wf : ∀ p : Node × Node, p = setSlot (c0, c1) b (resNode r) →
      wfUnder (mkInner nbits p) = true := by
    intro p hp
    cases hb : b <;>
      simp only [hb, setSlot, if_true, if_false, Bool.false_eq_true] at hp <;>
      subst hp <;>
      rw [hb] at hrh <;>
      simp [mkInner, wfUnder, hwf0, hwf1, hr, h0ne, h1ne, h0h, h1h, hrh, hrne,
        List.isEmpty_iff]
  have simplifyStep_eq : ∀ (p : Node × Node),
      simplifyStep nbits p =
        if childrenAreCompleteSubtrie (mkInner nbits p) then .simplifyInPlace (.leaf nbits)
        else .done (mkInner nbits p) := by
    intro p
    simp [simplifyStep, mkInner, Node.isLeaf]
  cases r with
  | done c =>
    exact ⟨inner_wf _ rfl, rfl⟩
  | simplifyInPlace c =>
    simp only [processChild, simplifyStep_eq]
    split_ifs with hcs
    · exact ⟨rfl, rfl⟩
    · exact ⟨inner_wf _ rfl, rfl⟩
  | simplifyReplaced c =>
    have hslot : setSlot (c0, c1) (Node.bits c).headI c = setSlot (c0, c1) b c := by
      rw [show (Node.bits c).headI = b from hrh]
    simp only [processChild, hslot, simplifyStep_eq]
    split_ifs with hcs
    · exact ⟨rfl, rfl⟩
    · exact ⟨inner_wf _ rfl, rfl⟩

/-- Inserting a non-empty route into a well-formed subtree yields a
well-formed subtree; moreover, when the search was routed to this node
consistently (its label starts with the same bit as the remaining
route), the resulting label is non-empty and starts with the same first
bit, so the node stays in its slot. -/
theorem insertNode_wf : ∀ (n : Node) (rest : List Bool), wfUnder n = true → rest ≠ [] →
    wfUnder (resNode (insertNode n rest)) = true ∧
      (Node.bits n ≠ [] → (Node.bits n).headI = rest.headI →
        Node.bits (resNode (insertNode n rest)) ≠ [] ∧
          (Node.bits (resNode (insertNode n rest))).headI = (Node.bits n).headI)
  | .leaf nbits, rest, hwf, hne => by
    simp only [insertNode]
    split_ifs with h1 h2 h3
    · exact ⟨rfl, fun hb hh => ⟨by simpa using hne, by simpa using hh.symm⟩⟩
    · exact ⟨rfl, fun hb hh => ⟨by simpa using hb, by simp⟩⟩
    · obtain ⟨hlen, hcpl⟩ := h3
      refine ⟨rfl, fun hb hh => ?_⟩
      simp only [bits_leaf] at hb hh ⊢
      have hL1 : 1 ≤ commonPrefixLen nbits rest := one_le_commonPrefixLen _ _ hb hne hh
      have hlen2 : 2 ≤ nbits.length := by
        have hL : (1 : Int) ≤ (commonPrefixLen nbits rest : Int) := by exact_mod_cast hL1
        omega
      exact ⟨take_pos_ne_nil _ _ (by omega) hb, headI_take_pos _ _ (by omega)⟩
    · have hd := commonPrefixLen_lt_of_diverge nbits rest h1 h2
      have hs := wfUnder_splitNodeForRoute (.leaf nbits) rest (by simpa using hd.1)
        (by simpa using hd.2) rfl
      refine ⟨by simpa using hs.1, fun hb hh => ?_⟩
      simp only [bits_leaf] at hb hh
      have hL1 : 1 ≤ commonPrefixLen nbits rest := one_le_commonPrefixLen _ _ hb hne hh
      rw [resNode_replaced, hs.2]
      simp only [bits_leaf]
      exact ⟨take_pos_ne_nil _ _ hL1 hb, headI_take_pos _ _ hL1⟩
  | .inner nbits c0 c1, rest, hwf, hne => by
    have hw := hwf
    simp only [wfUnder, Bool.and_eq_true, Bool.not_eq_true', List.isEmpty_eq_false,
      beq_iff_eq] at hw
    obtain ⟨⟨⟨⟨⟨h0ne, h1ne⟩, h0h⟩, h1h⟩, hwf0⟩, hwf1⟩ := hw
    have h0ne' : Node.bits c0 ≠ [] := by simpa [List.isEmpty_iff] using h0ne
    have h1ne' : Node.bits c1 ≠ [] := by simpa [List.isEmpty_iff] using h1ne
    have hlt : ∀ _ : ¬(rest.length ≤ nbits.length ∧ rest.isPrefixOf nbits = true),
        nbits.length ≤ rest.length → nbits.isPrefixOf rest = true →
        rest.drop nbits.length ≠ [] := by
      intro h1 hcl hpf
      apply drop_lt_ne_nil
      rcases Nat.lt_or_ge nbits.length rest.length with h | h
      · exact h
      · exfalso
        have heq : nbits = rest :=
          List.IsPrefix.eq_of_length ((isPrefixOf_true_iff _ _).mp hpf) (by omega)
        exact h1 ⟨by omega, by rw [heq, isPrefixOf_true_iff]⟩
    simp only [insertNode]
    split_ifs with h1 h2 hbv
    · exact ⟨rfl, fun hb hh => ⟨by simpa using hne, by simpa using hh.symm⟩⟩
    · have hrne' : rest.drop nbits.length ≠ [] := hlt h1 h2.1 h2.2
      rw [hbv]
      have IH := insertNode_wf c1 (rest.drop nbits.length) hwf1 hrne'
      have IH2 := IH.2 h1ne' (by rw [h1h, hbv])
      have hpc := wfUnder_processChild nbits c0 c1 true (insertNode c1 (rest.drop nbits.length))
        hwf0 h0ne' h0h hwf1 h1ne' h1h IH.1 IH2.1 (by rw [IH2.2, h1h])
      exact ⟨hpc.1, fun hb hh => by rw [hpc.2]; exact ⟨by simpa using hb, by simp⟩⟩
    · have hbv' : (rest.drop nbits.length).headI = false := by
        simpa using hbv
      have hrne' : rest.drop nbits.length ≠ [] := hlt h1 h2.1 h2.2
      rw [hbv']
      have IH := insertNode_wf c0 (rest.drop nbits.length) hwf0 hrne'
      have IH2 := IH.2 h0ne' (by rw [h0h, hbv'])
      have hpc := wfUnder_processChild nbits c0 c1 false (insertNode c0 (rest.drop nbits.length))
        hwf0 h0ne' h0h hwf1 h1ne' h1h IH.1 IH2.1 (by rw [IH2.2, h0h])
      exact ⟨hpc.1, fun hb hh => by rw [hpc.2]; exact ⟨by simpa using hb, by simp⟩⟩
    · have hd := commonPrefixLen_lt_of_diverge nbits rest h1 h2
      have hs := wfUnder_splitNodeForRoute (.inner nbits c0 c1) rest (by simpa using hd.1)
        (by simpa using hd.2) hwf
      refine ⟨by simpa using hs.1, fun hb hh => ?_⟩
      simp only [bits_inner] at hb hh
      have hL1 : 1 ≤ commonPrefixLen nbits rest := one_le_commonPrefixLen _ _ hb hne hh
      rw [resNode_replaced, hs.2]
      simp only [bits_inner]
      exact ⟨take_pos_ne_nil _ _ hL1 hb, headI_take_pos _ _ hL1⟩

/-- Well-formedness of a whole trie state. -/
def wfTrie : Option Node → Bool
  | none => true
  | some root => wfUnder root

theorem reachable_wf : ∀ {t : Option Node}, Reachable t → wfTrie t = true := by
  intro t h
  induction h with
  | empty => rfl
  | @step t' bits ht hbits ih =>
    cases t' with
    | none => rfl
    | some root => exact (insertNode_wf root bits ih hbits).1

/-! ### Specification-side vocabulary -/

/-- `coversKey S x`: some key in `S` is a bit-sequence prefix of `x`. -/
def coversKey (S : List (List Bool)) (x : List Bool) : Bool :=
  S.any (fun s => s.isPrefixOf x)

/-- All bit strings of a given length. -/
def allBitStrings : Nat → List (List Bool)
  | 0 => [[]]
  | n + 1 => (allBitStrings n).flatMap (fun x => [false :: x, true :: x])

/-- Two finite key sets span the same address space, compared on all bit
strings of length `L`; this characterizes span equality whenever every
key in either set has length at most `L`. -/
def sameSpanUpTo (L : Nat) (S T : List (List Bool)) : Bool :=
  (allBitStrings L).all (fun x => coversKey S x == coversKey T x)

/-- Every label in the tree (the root's included) is non-empty. -/
def labelsNonempty : Node → Bool
  | .leaf b => !b.isEmpty
  | .inner b c0 c1 => !b.isEmpty && labelsNonempty c0 && labelsNonempty c1

/-- `labelsNonempty` on a trie state. -/
def labelsNonemptyTrie : Option Node → Bool
  | none => true
  | some root => labelsNonempty root

/-- Every non-root label in the tree is non-empty. -/
def nonRootLabelsNonempty : Node → Bool
  | .leaf _ => true
  | .inner _ c0 c1 =>
    !(Node.bits c0).isEmpty && !(Node.bits c1).isEmpty &&
    nonRootLabelsNonempty c0 && nonRootLabelsNonempty c1

/-- Number of children of a node (the embedding has no one-child form,
mirroring the all-or-nothing writes of the `children` field in the
source). -/
def numChildren : Node → Nat
  | .leaf _ => 0
  | .inner _ _ _ => 2

/-- Every child in the tree sits in the slot indexed by the first bit of
its own label. -/
def childSlotsOk : Node → Bool
  | .leaf _ => true
  | .inner _ c0 c1 =>
    ((Node.bits c0).headI == false) && ((Node.bits c1).headI == true) &&
    childSlotsOk c0 && childSlotsOk c1

/-- All nodes of a subtree. -/
def allNodes : Node → List Node
  | .leaf b => [.leaf b]
  | .inner b c0 c1 => .inner b c0 c1 :: (allNodes c0 ++ allNodes c1)

theorem wfUnder_imp_nonRootLabelsNonempty :
    ∀ n : Node, wfUnder n = true → nonRootLabelsNonempty n = true
  | .leaf _, _ => rfl
  | .inner b c0 c1, h => by
    simp only [wfUnder, Bool.and_eq_true] at h
    obtain ⟨⟨⟨⟨⟨h0ne, h1ne⟩, _⟩, _⟩, hwf0⟩, hwf1⟩ := h
    simp only [nonRootLabelsNonempty, Bool.and_eq_true]
    exact ⟨⟨⟨h0ne, h1ne⟩, wfUnder_imp_nonRootLabelsNonempty c0 hwf0⟩,
      wfUnder_imp_nonRootLabelsNonempty c1 hwf1⟩

theorem wfUnder_imp_childSlotsOk :
    ∀ n : Node, wfUnder n = true → childSlotsOk n = true
  | .leaf _, _ => rfl
  | .inner b c0 c1, h => by
    simp only [wfUnder, Bool.and_eq_true] at h
    obtain ⟨⟨⟨⟨_, h0h⟩, h1h⟩, hwf0⟩, hwf1⟩ := h
    simp only [childSlotsOk, Bool.and_eq_true]
    exact ⟨⟨⟨h0h, h1h⟩, wfUnder_imp_childSlotsOk c0 hwf0⟩,
      wfUnder_imp_childSlotsOk c1 hwf1⟩

/-! ### Claims -/

/-- C1: evaluation of the code at the failing insertion sequence
001, 01, 00.  The third insertion hits the "requested route covers the
current node" branch, which truncates the visited child and returns with
no upward fix-up; the resulting leaf-key set {00, 01} spans exactly the
space of the single key {0} (checked on all 3-bit strings) with more
entries, so `Contents` is not the minimal covering set of
{previously stored keys} ∪ {bits}, contradicting the claim. -/
theorem c1_contents_not_minimal_after_truncate :
    contents (insertRoute (insertRoute (insertRoute none [false, false, true]) [false, true])
        [false, false]) = [[false, false], [false, true]] ∧
    sameSpanUpTo 3 [[false, false], [false, true]] [[false]] = true ∧
    ([[false]] : List (List Bool)).length <
      ([[false, false], [false, true]] : List (List Bool)).length := by
  refine ⟨?_, by decide, by decide⟩
  rw [contents_eq_contentsDFS]
  decide

/-- C2: inserting the same set of routes {001, 01, 00} in two different
orders yields different `Contents` sets: 001, 01, 00 leaves {00, 01},
while 00, 01, 001 leaves {0}; the key 0 is in the second result and not
in the first, so `Contents` is not order independent. -/
theorem c2_contents_depends_on_insertion_order :
    contents (insertRoute (insertRoute (insertRoute none [false, false, true]) [false, true])
        [false, false]) = [[false, false], [false, true]] ∧
    contents (insertRoute (insertRoute (insertRoute none [false, false]) [false, true])
        [false, false, true]) = [[false]] ∧
    [false] ∈ ([[false]] : List (List Bool)) ∧
    [false] ∉ ([[false, false], [false, true]] : List (List Bool)) := by
  refine ⟨?_, ?_, by decide, by decide⟩
  · rw [contents_eq_contentsDFS]
    decide
  · rw [contents_eq_contentsDFS]
    decide

/-- C3: in every reachable trie state every node has 0 or 2 children
(the child array is written all-or-nothing), and each child sits in the
slot indexed by the first bit of its own label. -/
theorem c3_structural_invariant (t : Option Node) (root : Node)
    (hr : Reachable t) (ht : t = some root) :
    (∀ m ∈ allNodes root, numChildren m = 0 ∨ numChildren m = 2) ∧
      childSlotsOk root = true := by
  have hwf : wfUnder root = true := by
    have h := reachable_wf hr
    rw [ht] at h
    exact h
  refine ⟨fun m _ => ?_, wfUnder_imp_childSlotsOk root hwf⟩
  cases m
  · exact Or.inl (by trivial)
  · exact Or.inr (by trivial)

theorem c3_structural_invariant_witness :
    (∀ m ∈ allNodes (.inner [] (.leaf [false, false]) (.leaf [true])),
        numChildren m = 0 ∨ numChildren m = 2) ∧
      childSlotsOk (.inner [] (.leaf [false, false]) (.leaf [true])) = true :=
  c3_structural_invariant (insertRoute (insertRoute none [false, false]) [true]) _
    (Reachable.step (Reachable.step Reachable.empty (by decide)) (by decide)) rfl

/-- C4 counterexample: after inserting the two one-bit routes 0 and 1
(a reachable state), the single-bit-divergence shortcut shortens the
root's label to the empty bit-sequence, so not every node's label is
non-empty. -/
theorem c4_root_label_empty_counterexample :
    Reachable (insertRoute (insertRoute none [false]) [true]) ∧
    insertRoute (insertRoute none [false]) [true] = some (.leaf []) ∧
    labelsNonemptyTrie (insertRoute (insertRoute none [false]) [true]) = false :=
  ⟨Reachable.step (Reachable.step Reachable.empty (by decide)) (by decide), rfl, by decide⟩

/-- C4 (amended): in every reachable trie state, every non-root node's
label is a non-empty bit-sequence (the root's label may be empty, e.g.
after the two one-bit routes 0 and 1 are inserted). -/
theorem c4_nonroot_labels_nonempty (t : Option Node) (root : Node)
    (hr : Reachable t) (ht : t = some root) :
    nonRootLabelsNonempty root = true := by
  have h := reachable_wf hr
  rw [ht] at h
  exact wfUnder_imp_nonRootLabelsNonempty root h

theorem c4_nonroot_labels_nonempty_witness :
    nonRootLabelsNonempty (.inner [] (.leaf [false, false]) (.leaf [true])) = true :=
  c4_nonroot_labels_nonempty (insertRoute (insertRoute none [false, false]) [true]) _
    (Reachable.step (Reachable.step Reachable.empty (by decide)) (by decide)) rfl

/-- C7: inserting R1 into an empty trie and then a broader strict prefix
R2 of R1 leaves `Contents` equal to [R2]; it contains R2 and not R1. -/
theorem c7_coverage_absorption (R1 R2 : List Bool) (hpre : R2 <+: R1) (hne : R2 ≠ R1) :
    contents (insertRoute (insertRoute none R1) R2) = [R2] ∧
      R2 ∈ contents (insertRoute (insertRoute none R1) R2) ∧
      R1 ∉ contents (insertRoute (insertRoute none R1) R2) := by
  have hc : contents (insertRoute (insertRoute none R1) R2) = [R2] := by
    simp only [insertRoute, insertNode]
    rw [if_pos ⟨hpre.length_le, (isPrefixOf_true_iff _ _).mpr hpre⟩]
    rw [contents_eq_contentsDFS]
    simp [contentsDFS, dfsContents]
  refine ⟨hc, by rw [hc]; exact List.mem_singleton.mpr rfl, ?_⟩
  rw [hc]
  simp only [List.mem_singleton]
  exact fun h => hne h.symm

theorem c7_coverage_absorption_witness :
    contents (insertRoute (insertRoute none [false, true]) [false]) = [[false]] ∧
      [false] ∈ contents (insertRoute (insertRoute none [false, true]) [false]) ∧
      [false, true] ∉ contents (insertRoute (insertRoute none [false, true]) [false]) :=
  c7_coverage_absorption [false, true] [false] ⟨[true], rfl⟩ (by decide)

/-! ### C5/C10 machinery: keys of a subtree -/

theorem dfsContents_key_shape :
    ∀ (n : Node) (pre k : List Bool), k ∈ dfsContents pre n →
      ∃ suf, k = (pre ++ Node.bits n) ++ suf
  | .leaf b, pre, k, hk => by
    simp only [dfsContents, List.mem_singleton] at hk
    exact ⟨[], by simp [hk]⟩
  | .inner b c0 c1, pre, k, hk => by
    simp only [dfsContents, List.mem_append] at hk
    rcases hk with hk | hk
    · obtain ⟨s, hs⟩ := dfsContents_key_shape c0 (pre ++ b) k hk
      refine ⟨Node.bits c0 ++ s, ?_⟩
      rw [hs]
      simp
    · obtain ⟨s, hs⟩ := dfsContents_key_shape c1 (pre ++ b) k hk
      refine ⟨Node.bits c1 ++ s, ?_⟩
      rw [hs]
      simp

theorem not_prefix_of_diverge (q u v : List Bool) (x y : Bool) (hxy : x ≠ y) :
    ¬ (q ++ x :: u) <+: (q ++ y :: v) := by
  rintro ⟨t, ht⟩
  rw [List.append_assoc] at ht
  have h2 := List.append_cancel_left ht
  simp only [List.cons_append, List.cons.injEq] at h2
  exact hxy h2.1

/-- Unpacked form of `wfUnder` at an inner node. -/
theorem wfUnder_inner_iff (b : List Bool) (c0 c1 : Node) :
    wfUnder (.inner b c0 c1) = true ↔
      Node.bits c0 ≠ [] ∧ Node.bits c1 ≠ [] ∧
      (Node.bits c0).headI = false ∧ (Node.bits c1).headI = true ∧
      wfUnder c0 = true ∧ wfUnder c1 = true := by
  simp only [wfUnder, Bool.and_eq_true, Bool.not_eq_true', List.isEmpty_eq_false,
    beq_iff_eq, List.isEmpty_iff]
  tauto

theorem dfsContents_pairwise_noncovering :
    ∀ (n : Node) (pre : List Bool), wfUnder n = true →
      (dfsContents pre n).Pairwise (fun a b => ¬ a <+: b ∧ ¬ b <+: a)
  | .leaf b, pre, _ => by
    simp only [dfsContents]
    exact List.pairwise_singleton _ _
  | .inner b c0 c1, pre, hwf => by
    obtain ⟨h0ne, h1ne, h0h, h1h, hwf0, hwf1⟩ := (wfUnder_inner_iff b c0 c1).mp hwf
    simp only [dfsContents]
    refine List.pairwise_append.mpr ⟨dfsContents_pairwise_noncovering c0 (pre ++ b) hwf0,
      dfsContents_pairwise_noncovering c1 (pre ++ b) hwf1, ?_⟩
    intro a ha a' ha'
    obtain ⟨s, hs⟩ := dfsContents_key_shape c0 (pre ++ b) a ha
    obtain ⟨s', hs'⟩ := dfsContents_key_shape c1 (pre ++ b) a' ha'
    rcases hc0 : Node.bits c0 with _ | ⟨x0, t0⟩
    · exact absurd hc0 h0ne
    rcases hc1 : Node.bits c1 with _ | ⟨x1, t1⟩
    · exact absurd hc1 h1ne
    have hx0 : x0 = false := by rw [hc0] at h0h; simpa using h0h
    have hx1 : x1 = true := by rw [hc1] at h1h; simpa using h1h
    subst hx0
    subst hx1
    rw [hc0] at hs
    rw [hc1] at hs'
    have ha2 : a = (pre ++ b) ++ false :: (t0 ++ s) := by rw [hs]; simp
    have ha2' : a' = (pre ++ b) ++ true :: (t1 ++ s') := by rw [hs']; simp
    rw [ha2, ha2']
    exact ⟨not_prefix_of_diverge _ _ _ _ _ (by simp),
      not_prefix_of_diverge _ _ _ _ _ (by simp)⟩

/-- C5: in every reachable trie state, no key emitted by `Contents` is a
bit-sequence prefix of another emitted key. -/
theorem c5_contents_noncovering (t : Option Node) (hr : Reachable t) :
    (contents t).Pairwise (fun a b => ¬ a <+: b ∧ ¬ b <+: a) := by
  rw [contents_eq_contentsDFS]
  cases t with
  | none => simp [contentsDFS]
  | some root => exact dfsContents_pairwise_noncovering root [] (reachable_wf hr)

theorem c5_contents_noncovering_witness :
    (contents (insertRoute (insertRoute none [false, false]) [true])).Pairwise
      (fun a b => ¬ a <+: b ∧ ¬ b <+: a) :=
  c5_contents_noncovering _
    (Reachable.step (Reachable.step Reachable.empty (by decide)) (by decide))

/-- Strict lexicographic order on bit strings, with 0 before 1 and a
proper prefix before its extensions. -/
def lexLt : List Bool → List Bool → Bool
  | [], [] => false
  | [], _ :: _ => true
  | _ :: _, [] => false
  | x :: xs, y :: ys => (!x && y) || ((x == y) && lexLt xs ys)

theorem lexLt_diverge : ∀ (q u v : List Bool), lexLt (q ++ false :: u) (q ++ true :: v) = true
  | [], u, v => by simp [lexLt]
  | z :: q', u, v => by simp [lexLt, lexLt_diverge q' u v]

theorem dfsContents_pairwise_lexLt :
    ∀ (n : Node) (pre : List Bool), wfUnder n = true →
      (dfsContents pre n).Pairwise (fun a b => lexLt a b = true)
  | .leaf b, pre, _ => by
    simp only [dfsContents]
    exact List.pairwise_singleton _ _
  | .inner b c0 c1, pre, hwf => by
    obtain ⟨h0ne, h1ne, h0h, h1h, hwf0, hwf1⟩ := (wfUnder_inner_iff b c0 c1).mp hwf
    simp only [dfsContents]
    refine List.pairwise_append.mpr ⟨dfsContents_pairwise_lexLt c0 (pre ++ b) hwf0,
      dfsContents_pairwise_lexLt c1 (pre ++ b) hwf1, ?_⟩
    intro a ha a' ha'
    obtain ⟨s, hs⟩ := dfsContents_key_shape c0 (pre ++ b) a ha
    obtain ⟨s', hs'⟩ := dfsContents_key_shape c1 (pre ++ b) a' ha'
    rcases hc0 : Node.bits c0 with _ | ⟨x0, t0⟩
    · exact absurd hc0 h0ne
    rcases hc1 : Node.bits c1 with _ | ⟨x1, t1⟩
    · exact absurd hc1 h1ne
    have hx0 : x0 = false := by rw [hc0] at h0h; simpa using h0h
    have hx1 : x1 = true := by rw [hc1] at h1h; simpa using h1h
    subst hx0
    subst hx1
    rw [hc0] at hs
    rw [hc1] at hs'
    have ha2 : a = (pre ++ b) ++ false :: (t0 ++ s) := by rw [hs]; simp
    have ha2' : a' = (pre ++ b) ++ true :: (t1 ++ s') := by rw [hs']; simp
    rw [ha2, ha2']
    exact lexLt_diverge _ _ _

/-- C10: `Contents` performs a depth-first pre-order traversal with the
0-child before the 1-child (the work-list loop equals `contentsDFS`);
consequently, on every reachable trie state the emitted keys are
strictly increasing in lexicographic bit-string order, and the empty
trie yields the empty sequence. -/
theorem c10_contents_dfs_order :
    contents none = [] ∧
    (∀ t : Option Node, contents t = contentsDFS t) ∧
    (∀ t : Option Node, Reachable t →
      (contents t).Pairwise (fun a b => lexLt a b = true)) := by
  refine ⟨rfl, contents_eq_contentsDFS, fun t hr => ?_⟩
  rw [contents_eq_contentsDFS]
  cases t with
  | none => simp [contentsDFS]
  | some root => exact dfsContents_pairwise_lexLt root [] (reachable_wf hr)

theorem c10_contents_dfs_order_witness :
    (contents (insertRoute (insertRoute none [false, false]) [true])).Pairwise
      (fun a b => lexLt a b = true) :=
  c10_contents_dfs_order.2.2 _
    (Reachable.step (Reachable.step Reachable.empty (by decide)) (by decide))

/-! ### C6 machinery: a second insertion of the same route is a no-op -/

theorem take_isPrefixOf_self (l : List Bool) (n : Nat) : (l.take n).isPrefixOf l = true :=
  (isPrefixOf_true_iff _ _).mpr ⟨l.drop n, List.take_append_drop n l⟩

theorem insertNode_leaf_self (b : List Bool) : insertNode (.leaf b) b = .done (.leaf b) := by
  simp only [insertNode]
  rw [if_pos ⟨le_refl _, (isPrefixOf_true_iff _ _).mpr ⟨[], List.append_nil b⟩⟩]

/-- In the divergence case, `splitNodeForRoute` puts the relabeled old
node and the fresh route leaf into the slots given by their (differing)
first bits. -/
theorem splitNodeForRoute_eq (n : Node) (rest : List Bool)
    (hL1 : commonPrefixLen (Node.bits n) rest < (Node.bits n).length)
    (hL2 : commonPrefixLen (Node.bits n) rest < rest.length) :
    splitNodeForRoute n rest =
      if (rest.drop (commonPrefixLen (Node.bits n) rest)).headI = true then
        .inner ((Node.bits n).take (commonPrefixLen (Node.bits n) rest))
          (n.withBits ((Node.bits n).drop (commonPrefixLen (Node.bits n) rest)))
          (.leaf (rest.drop (commonPrefixLen (Node.bits n) rest)))
      else
        .inner ((Node.bits n).take (commonPrefixLen (Node.bits n) rest))
          (.leaf (rest.drop (commonPrefixLen (Node.bits n) rest)))
          (n.withBits ((Node.bits n).drop (commonPrefixLen (Node.bits n) rest))) := by
  have hne := headI_drop_commonPrefixLen_ne (Node.bits n) rest hL1 hL2
  unfold splitNodeForRoute
  rcases hb : (rest.drop (commonPrefixLen (Node.bits n) rest)).headI with _ | _
  all_goals
    rcases hb' : ((Node.bits n).drop (commonPrefixLen (Node.bits n) rest)).headI with _ | _
  · rw [hb, hb'] at hne
    exact absurd rfl hne
  · simp [withBits_bits, hb, hb', setSlot, mkInner]
  · simp [withBits_bits, hb, hb', setSlot, mkInner]
  · rw [hb, hb'] at hne
    exact absurd rfl hne

/-- Inserting the same route again right after a divergence split is a
no-op: the descent reaches the fresh route leaf and stops. -/
theorem insertNode_after_split (n : Node) (rest : List Bool)
    (hL1 : commonPrefixLen (Node.bits n) rest < (Node.bits n).length)
    (hL2 : commonPrefixLen (Node.bits n) rest < rest.length) :
    insertNode (splitNodeForRoute n rest) rest = .done (splitNodeForRoute n rest) := by
  have hcommon : ((Node.bits n).take (commonPrefixLen (Node.bits n) rest)).length =
      commonPrefixLen (Node.bits n) rest := by
    rw [List.length_take]
    omega
  have hpf : ((Node.bits n).take (commonPrefixLen (Node.bits n) rest)).isPrefixOf rest = true := by
    rw [take_commonPrefixLen_eq]
    exact take_isPrefixOf_self rest _
  have hneg : ¬(rest.length ≤ ((Node.bits n).take (commonPrefixLen (Node.bits n) rest)).length ∧
      rest.isPrefixOf ((Node.bits n).take (commonPrefixLen (Node.bits n) rest)) = true) := by
    intro hcon
    have := hcon.1
    rw [hcommon] at this
    omega
  rw [splitNodeForRoute_eq n rest hL1 hL2]
  rcases hb : (rest.drop (commonPrefixLen (Node.bits n) rest)).headI with _ | _
  · simp only [hb, Bool.false_eq_true, if_false]
    simp only [insertNode]
    rw [if_neg hneg, if_pos ⟨by rw [hcommon]; omega, hpf⟩, hcommon, hb]
    simp only [Bool.false_eq_true, if_false, insertNode_leaf_self]
    simp [processChild, setSlot, mkInner]
  · simp only [hb, if_true]
    simp only [insertNode]
    rw [if_neg hneg, if_pos ⟨by rw [hcommon]; omega, hpf⟩, hcommon, hb]
    simp only [if_true, insertNode_leaf_self]
    simp [processChild, setSlot, mkInner]

@[simp] theorem setSlot_true (p : Node × Node) (c : Node) : setSlot p true c = (p.1, c) := rfl

@[simp] theorem setSlot_false (p : Node × Node) (c : Node) : setSlot p false c = (c, p.2) := rfl

@[simp] theorem mkInner_eq (b : List Bool) (p : Node × Node) : mkInner b p = .inner b p.1 p.2 := rfl

theorem simplifyStep_cases (nbits : List Bool) (p : Node × Node) :
    simplifyStep nbits p =
      if childrenAreCompleteSubtrie (mkInner nbits p) then .simplifyInPlace (.leaf nbits)
      else .done (mkInner nbits p) := by
  simp [simplifyStep, mkInner, Node.isLeaf]

/-- A second insertion of the same route, right after the first one, is
recognized as already covered at every node and changes nothing. -/
theorem insertNode_idem : ∀ (n : Node) (rest : List Bool), wfUnder n = true → rest ≠ [] →
    insertNode (resNode (insertNode n rest)) rest = .done (resNode (insertNode n rest))
  | .leaf nbits, rest, hwf, hne => by
    simp only [insertNode]
    split_ifs with h1 h2 h3
    · simp only [resNode_done]
      exact insertNode_leaf_self rest
    · simp only [resNode_done, insertNode]
      rw [if_neg h1, if_pos h2]
    · simp only [resNode_inPlace]
      obtain ⟨hlen, hcpl⟩ := h3
      have hr1 : rest ≠ [] := hne
      have hr2 : 1 ≤ rest.length := List.length_pos.mpr hne
      have hLle := commonPrefixLen_le_left nbits rest
      have hLnat : commonPrefixLen nbits rest = nbits.length - 1 := by omega
      have hpf2 : (nbits.take (nbits.length - 1)).isPrefixOf rest = true := by
        rw [← hLnat, take_commonPrefixLen_eq]
        exact take_isPrefixOf_self rest _
      have hlt : (nbits.take (nbits.length - 1)).length = nbits.length - 1 := by
        rw [List.length_take]
        omega
      have hneg1 : ¬(rest.length ≤ (nbits.take (nbits.length - 1)).length ∧
          rest.isPrefixOf (nbits.take (nbits.length - 1)) = true) := by
        rw [hlt]
        intro hcon
        omega
      simp only [insertNode]
      rw [if_neg hneg1, if_pos ⟨by rw [hlt]; omega, hpf2⟩]
    · simp only [resNode_replaced]
      have hd := commonPrefixLen_lt_of_diverge nbits rest h1 h2
      exact insertNode_after_split (.leaf nbits) rest (by simpa using hd.1)
        (by simpa using hd.2)
  | .inner nbits c0 c1, rest, hwf, hne => by
    obtain ⟨h0ne, h1ne, h0h, h1h, hwf0, hwf1⟩ := (wfUnder_inner_iff nbits c0 c1).mp hwf
    have hlt : ∀ _ : ¬(rest.length ≤ nbits.length ∧ rest.isPrefixOf nbits = true),
        nbits.length ≤ rest.length → nbits.isPrefixOf rest = true →
        rest.drop nbits.length ≠ [] := by
      intro h1 hcl hpf
      apply drop_lt_ne_nil
      rcases Nat.lt_or_ge nbits.length rest.length with h | h
      · exact h
      · exfalso
        have heq : nbits = rest :=
          List.IsPrefix.eq_of_length ((isPrefixOf_true_iff _ _).mp hpf) (by omega)
        exact h1 ⟨by omega, by rw [heq, isPrefixOf_true_iff]⟩
    simp only [insertNode]
    split_ifs with h1 h2 hbv
    · simp only [resNode_done]
      exact insertNode_leaf_self rest
    · rw [hbv]
      have hrne' := hlt h1 h2.1 h2.2
      have IH := insertNode_idem c1 (rest.drop nbits.length) hwf1 hrne'
      have IHwf := insertNode_wf c1 (rest.drop nbits.length) hwf1 hrne'
      have IH2 := IHwf.2 h1ne (by rw [h1h, hbv])
      rcases hr : insertNode c1 (rest.drop nbits.length) with c' | c' | c'
      all_goals rw [hr] at IH IH2
      all_goals simp only [resNode_done, resNode_inPlace, resNode_replaced] at IH IH2
      · simp only [processChild, setSlot_true, mkInner_eq, resNode_done, insertNode]
        rw [if_neg h1, if_pos h2, hbv]
        simp only [if_true, IH, processChild, setSlot_true, mkInner_eq]
      · simp only [processChild, setSlot_true, simplifyStep_cases, mkInner_eq]
        split_ifs with hcs
        · simp only [resNode_inPlace, insertNode]
          rw [if_neg h1, if_pos h2]
        · simp only [resNode_done, insertNode]
          rw [if_neg h1, if_pos h2, hbv]
          simp only [if_true, IH, processChild, setSlot_true, mkInner_eq]
      · simp only [processChild]
        rw [IH2.2, h1h]
        simp only [setSlot_true, simplifyStep_cases, mkInner_eq]
        split_ifs with hcs
        · simp only [resNode_inPlace, insertNode]
          rw [if_neg h1, if_pos h2]
        · simp only [resNode_done, insertNode]
          rw [if_neg h1, if_pos h2, hbv]
          simp only [if_true, IH, processChild, setSlot_true, mkInner_eq]
    · have hbv' : (rest.drop nbits.length).headI = false := by simpa using hbv
      rw [hbv']
      have hrne' := hlt h1 h2.1 h2.2
      have IH := insertNode_idem c0 (rest.drop nbits.length) hwf0 hrne'
      have IHwf := insertNode_wf c0 (rest.drop nbits.length) hwf0 hrne'
      have IH2 := IHwf.2 h0ne (by rw [h0h, hbv'])
      rcases hr : insertNode c0 (rest.drop nbits.length) with c' | c' | c'
      all_goals rw [hr] at IH IH2
      all_goals simp only [resNode_done, resNode_inPlace, resNode_replaced] at IH IH2
      · simp only [processChild, setSlot_false, mkInner_eq, resNode_done, insertNode]
        rw [if_neg h1, if_pos h2, hbv']
        simp only [Bool.false_eq_true, if_false, IH, processChild, setSlot_false, mkInner_eq]
      · simp only [processChild, setSlot_false, simplifyStep_cases, mkInner_eq]
        split_ifs with hcs
        · simp only [resNode_inPlace, insertNode]
          rw [if_neg h1, if_pos h2]
        · simp only [resNode_done, insertNode]
          rw [if_neg h1, if_pos h2, hbv']
          simp only [Bool.false_eq_true, if_false, IH, processChild, setSlot_false, mkInner_eq]
      · simp only [processChild]
        rw [IH2.2, h0h]
        simp only [setSlot_false, simplifyStep_cases, mkInner_eq]
        split_ifs with hcs
        · simp only [resNode_inPlace, insertNode]
          rw [if_neg h1, if_pos h2]
        · simp only [resNode_done, insertNode]
          rw [if_neg h1, if_pos h2, hbv']
          simp only [Bool.false_eq_true, if_false, IH, processChild, setSlot_false, mkInner_eq]
    · simp only [resNode_replaced]
      have hd := commonPrefixLen_lt_of_diverge nbits rest h1 h2
      exact insertNode_after_split (.inner nbits c0 c1) rest (by simpa using hd.1)
        (by simpa using hd.2)

/-- C6: on every reachable trie state, inserting the same non-empty
route twice in a row yields the same trie — and hence the same
`Contents` — as inserting it once. -/
theorem c6_insert_idempotent (t : Option Node) (R : List Bool)
    (hr : Reachable t) (hne : R ≠ []) :
    insertRoute (insertRoute t R) R = insertRoute t R ∧
    contents (insertRoute (insertRoute t R) R) = contents (insertRoute t R) := by
  have heq : insertRoute (insertRoute t R) R = insertRoute t R := by
    cases t with
    | none =>
      simp only [insertRoute]
      rw [insertNode_leaf_self R, resNode_done]
    | some root =>
      simp only [insertRoute]
      rw [insertNode_idem root R (reachable_wf hr) hne, resNode_done]
  exact ⟨heq, by rw [heq]⟩

theorem c6_insert_idempotent_witness :
    insertRoute (insertRoute (insertRoute none [true]) [false]) [false] =
      insertRoute (insertRoute none [true]) [false] ∧
    contents (insertRoute (insertRoute (insertRoute none [true]) [false]) [false]) =
      contents (insertRoute (insertRoute none [true]) [false]) :=
  c6_insert_idempotent (insertRoute none [true]) [false]
    (Reachable.step Reachable.empty (by decide)) (by decide)

/-! ### C8: the single-bit-divergence shortcut vs. the general split -/

/-- The claim's formulation read literally: in the divergence case,
always perform the general split via `splitNodeForRoute` and then run
the upward collapse pass over the visited (ancestor) stack — the stack
does not contain the newly allocated node.  The covered/covering and
descend branches are unchanged. -/
def insertNodeNoOpt : Node → List Bool → Res
  | .leaf nbits, remaining =>
    if remaining.length ≤ nbits.length ∧ remaining.isPrefixOf nbits then
      .done (.leaf remaining)
    else if nbits.length ≤ remaining.length ∧ nbits.isPrefixOf remaining then
      .done (.leaf nbits)
    else
      .simplifyReplaced (splitNodeForRoute (.leaf nbits) remaining)
  | .inner nbits c0 c1, remaining =>
    if remaining.length ≤ nbits.length ∧ remaining.isPrefixOf nbits then
      .done (.leaf remaining)
    else if nbits.length ≤ remaining.length ∧ nbits.isPrefixOf remaining then
      processChild nbits c0 c1 (remaining.drop nbits.length).headI
        (if (remaining.drop nbits.length).headI then
          insertNodeNoOpt c1 (remaining.drop nbits.length)
         else insertNodeNoOpt c0 (remaining.drop nbits.length))
    else
      .simplifyReplaced (splitNodeForRoute (.inner nbits c0 c1) remaining)

/-- The claim's formulation as a trie operation. -/
def insertRouteNoOpt (t : Option Node) (routeBits : List Bool) : Option Node :=
  match t with
  | none => some (.leaf routeBits)
  | some root => some (resNode (insertNodeNoOpt root routeBits))

/-- The amended formulation: general split, with the newly allocated
node itself included at the bottom of the collapse pass, so that a
complete new node (two single-bit leaf children) is collapsed to a leaf
immediately — the "allocate-then-collapse round trip" the shortcut
skips.  The pass then continues over the ancestors as usual. -/
def insertNodeSplitCollapse : Node → List Bool → Res
  | .leaf nbits, remaining =>
    if remaining.length ≤ nbits.length ∧ remaining.isPrefixOf nbits then
      .done (.leaf remaining)
    else if nbits.length ≤ remaining.length ∧ nbits.isPrefixOf remaining then
      .done (.leaf nbits)
    else
      let nn := splitNodeForRoute (.leaf nbits) remaining
      if childrenAreCompleteSubtrie nn then .simplifyReplaced (.leaf (Node.bits nn))
      else .simplifyReplaced nn
  | .inner nbits c0 c1, remaining =>
    if remaining.length ≤ nbits.length ∧ remaining.isPrefixOf nbits then
      .done (.leaf remaining)
    else if nbits.length ≤ remaining.length ∧ nbits.isPrefixOf remaining then
      processChild nbits c0 c1 (remaining.drop nbits.length).headI
        (if (remaining.drop nbits.length).headI then
          insertNodeSplitCollapse c1 (remaining.drop nbits.length)
         else insertNodeSplitCollapse c0 (remaining.drop nbits.length))
    else
      let nn := splitNodeForRoute (.inner nbits c0 c1) remaining
      if childrenAreCompleteSubtrie nn then .simplifyReplaced (.leaf (Node.bits nn))
      else .simplifyReplaced nn

/-- The amended formulation as a trie operation. -/
def insertRouteSplitCollapse (t : Option Node) (routeBits : List Bool) : Option Node :=
  match t with
  | none => some (.leaf routeBits)
  | some root => some (resNode (insertNodeSplitCollapse root routeBits))

@[simp] theorem isLeaf_leaf (b : List Bool) : Node.isLeaf (.leaf b) = true := rfl

@[simp] theorem isLeaf_inner (b : List Bool) (c0 c1 : Node) :
    Node.isLeaf (.inner b c0 c1) = false := rfl

theorem isLeaf_withBits (n : Node) (b : List Bool) : (n.withBits b).isLeaf = n.isLeaf := by
  cases n <;> rfl

theorem bits_splitNodeForRoute (n : Node) (rest : List Bool) :
    Node.bits (splitNodeForRoute n rest) =
      (Node.bits n).take (commonPrefixLen (Node.bits n) rest) := rfl

/-- The freshly split node is a complete subtrie exactly under the
single-bit-divergence condition of the shortcut. -/
theorem complete_split_iff (n : Node) (rest : List Bool)
    (hL1 : commonPrefixLen (Node.bits n) rest < (Node.bits n).length)
    (hL2 : commonPrefixLen (Node.bits n) rest < rest.length) :
    childrenAreCompleteSubtrie (splitNodeForRoute n rest) = true ↔
      (n.isLeaf = true ∧ (Node.bits n).length = rest.length ∧
        (commonPrefixLen (Node.bits n) rest : Int) = ((Node.bits n).length : Int) - 1) := by
  rw [splitNodeForRoute_eq n rest hL1 hL2]
  rcases hb : (rest.drop (commonPrefixLen (Node.bits n) rest)).headI with _ | _
  · simp only [hb, Bool.false_eq_true, if_false, childrenAreCompleteSubtrie,
      isLeaf_withBits, isLeaf_leaf, withBits_bits, bits_leaf, List.length_drop,
      Bool.and_eq_true, beq_iff_eq, Bool.true_and, Bool.and_true]
    constructor
    · rintro ⟨⟨hl, hn⟩, hr⟩
      exact ⟨hl, by omega, by omega⟩
    · rintro ⟨hl, hlen, hL⟩
      exact ⟨⟨hl, by omega⟩, by omega⟩
  · simp only [hb, if_true, childrenAreCompleteSubtrie, isLeaf_withBits, isLeaf_leaf,
      withBits_bits, bits_leaf, List.length_drop, Bool.and_eq_true, beq_iff_eq,
      Bool.true_and, Bool.and_true]
    constructor
    · rintro ⟨⟨hl, hn⟩, hr⟩
      exact ⟨hl, by omega, by omega⟩
    · rintro ⟨hl, hlen, hL⟩
      exact ⟨⟨hl, by omega⟩, by omega⟩

/-- At every node of a well-formed subtree the amended split-collapse
formulation computes the same result as the code's shortcut version, up
to the shortcut's in-place update of the visited node being expressed as
a replacement by an equal node. -/
theorem insertNodeSplitCollapse_rel : ∀ (n : Node) (rest : List Bool),
    wfUnder n = true → rest ≠ [] →
    insertNodeSplitCollapse n rest = insertNode n rest ∨
    (∃ m : Node, insertNode n rest = .simplifyInPlace m ∧
      insertNodeSplitCollapse n rest = .simplifyReplaced m ∧
      (Node.bits n ≠ [] → (Node.bits n).headI = rest.headI →
        Node.bits m ≠ [] ∧ (Node.bits m).headI = (Node.bits n).headI))
  | .leaf nbits, rest, hwf, hne => by
    simp only [insertNode, insertNodeSplitCollapse]
    split_ifs with h1 h2 hcs h3 h3'
    · exact Or.inl (by trivial)
    · exact Or.inl (by trivial)
    · -- the new node is complete and the shortcut condition holds
      have hd := commonPrefixLen_lt_of_diverge nbits rest h1 h2
      have hL : commonPrefixLen nbits rest = nbits.length - 1 := by
        obtain ⟨hlen, hInt⟩ := h3
        omega
      refine Or.inr ⟨.leaf (nbits.take (nbits.length - 1)), rfl, ?_, ?_⟩
      · rw [bits_splitNodeForRoute]
        simp only [bits_leaf]
        rw [hL]
      · intro hb hh
        simp only [bits_leaf] at hb hh ⊢
        have hL1 : 1 ≤ commonPrefixLen nbits rest := one_le_commonPrefixLen _ _ hb hne hh
        exact ⟨take_pos_ne_nil _ _ (by omega) hb, headI_take_pos _ _ (by omega)⟩
    · -- complete but the shortcut condition fails: impossible
      have hd := commonPrefixLen_lt_of_diverge nbits rest h1 h2
      have hiff := complete_split_iff (.leaf nbits) rest (by simpa using hd.1)
        (by simpa using hd.2)
      obtain ⟨_, hlen, hInt⟩ := hiff.mp hcs
      exact absurd ⟨by simpa using hlen, by simpa using hInt⟩ h3
    · -- shortcut condition but the new node is not complete: impossible
      have hd := commonPrefixLen_lt_of_diverge nbits rest h1 h2
      have hiff := complete_split_iff (.leaf nbits) rest (by simpa using hd.1)
        (by simpa using hd.2)
      exact absurd (hiff.mpr ⟨rfl, by simpa using h3'.1, by simpa using h3'.2⟩) hcs
    · exact Or.inl (by trivial)
  | .inner nbits c0 c1, rest, hwf, hne => by
    obtain ⟨h0ne, h1ne, h0h, h1h, hwf0, hwf1⟩ := (wfUnder_inner_iff nbits c0 c1).mp hwf
    have hlt : ∀ _ : ¬(rest.length ≤ nbits.length ∧ rest.isPrefixOf nbits = true),
        nbits.length ≤ rest.length → nbits.isPrefixOf rest = true →
        rest.drop nbits.length ≠ [] := by
      intro h1 hcl hpf
      apply drop_lt_ne_nil
      rcases Nat.lt_or_ge nbits.length rest.length with h | h
      · exact h
      · exfalso
        have heq : nbits = rest :=
          List.IsPrefix.eq_of_length ((isPrefixOf_true_iff _ _).mp hpf) (by omega)
        exact h1 ⟨by omega, by rw [heq, isPrefixOf_true_iff]⟩
    simp only [insertNode, insertNodeSplitCollapse]
    split_ifs with h1 h2 hbv hcs
    · exact Or.inl (by trivial)
    · rw [hbv]
      have hrne' := hlt h1 h2.1 h2.2
      rcases insertNodeSplitCollapse_rel c1 (rest.drop nbits.length) hwf1 hrne' with
        heq | ⟨m, hm1, hm2, hm3⟩
      · rw [heq]
        exact Or.inl (by trivial)
      · rw [hm1, hm2]
        have hm3' := hm3 h1ne (by rw [h1h, hbv])
        refine Or.inl ?_
        simp only [processChild]
        rw [hm3'.2, h1h]
    · have hbv' : (rest.drop nbits.length).headI = false := by simpa using hbv
      rw [hbv']
      have hrne' := hlt h1 h2.1 h2.2
      rcases insertNodeSplitCollapse_rel c0 (rest.drop nbits.length) hwf0 hrne' with
        heq | ⟨m, hm1, hm2, hm3⟩
      · rw [heq]
        exact Or.inl (by trivial)
      · rw [hm1, hm2]
        have hm3' := hm3 h0ne (by rw [h0h, hbv'])
        refine Or.inl ?_
        simp only [processChild]
        rw [hm3'.2, h0h]
    · have hd := commonPrefixLen_lt_of_diverge nbits rest h1 h2
      have hiff := complete_split_iff (.inner nbits c0 c1) rest (by simpa using hd.1)
        (by simpa using hd.2)
      have := (hiff.mp hcs).1
      simp at this
    · exact Or.inl (by trivial)

/-- C8 (amended): on every reachable trie state the code's insertion
(with the single-bit-divergence shortcut) and the general-split
formulation in which the new node itself joins the bottom of the upward
collapse pass produce the same trie, hence identical `Contents`. -/
theorem c8_shortcut_equiv_split_collapse (t : Option Node) (bits : List Bool)
    (hr : Reachable t) (hne : bits ≠ []) :
    insertRouteSplitCollapse t bits = insertRoute t bits ∧
    contents (insertRouteSplitCollapse t bits) = contents (insertRoute t bits) := by
  have heq : insertRouteSplitCollapse t bits = insertRoute t bits := by
    cases t with
    | none => rfl
    | some root =>
      simp only [insertRoute, insertRouteSplitCollapse]
      rcases insertNodeSplitCollapse_rel root bits (reachable_wf hr) hne with
        h | ⟨m, hm1, hm2, _⟩
      · rw [h]
      · rw [hm1, hm2]
        rfl
  exact ⟨heq, by rw [heq]⟩

theorem c8_shortcut_equiv_split_collapse_witness :
    insertRouteSplitCollapse (insertRoute none [false, false]) [false, true] =
      insertRoute (insertRoute none [false, false]) [false, true] ∧
    contents (insertRouteSplitCollapse (insertRoute none [false, false]) [false, true]) =
      contents (insertRoute (insertRoute none [false, false]) [false, true]) :=
  c8_shortcut_equiv_split_collapse (insertRoute none [false, false]) [false, true]
    (Reachable.step Reachable.empty (by decide)) (by decide)

/-- C8 counterexample to the claim as stated: on the reachable trie
holding just 00, inserting 01 through the code's shortcut yields
Contents [0], while the literal "general split via splitNodeForRoute
followed by the upward collapse pass (over the visited stack)" yields
Contents [00, 01] — the pass starts above the new node and never
collapses it, so the two formulations differ. -/
theorem c8_literal_split_differs :
    Reachable (insertRoute none [false, false]) ∧
    contents (insertRoute (insertRoute none [false, false]) [false, true]) = [[false]] ∧
    contents (insertRouteNoOpt (insertRoute none [false, false]) [false, true]) =
      [[false, false], [false, true]] := by
  refine ⟨Reachable.step Reachable.empty (by decide), ?_, ?_⟩
  · rw [contents_eq_contentsDFS]
    decide
  · rw [contents_eq_contentsDFS]
    decide

/-! ### C9: the text-insertion facade (`routesum.go`) -/

/-- The two tries held by `RouteSum` (`rs.ipv4`, `rs.ipv6`). -/
structure RouteSum : Type where
  ipv4 : Option Node
  ipv6 : Option Node
deriving DecidableEq, Repr

/-- The external `net/netip` layer used by `InsertFromString`,
abstracted as opaque-behaviour functions (the facade only calls them and
branches on results; they are Go standard library code, not part of this
repository).  `Pfx` and `Addr` stand for `netip.Prefix` and
`netip.Addr`. -/
structure NetipApi (Pfx Addr : Type) : Type where
  parsePfx : String → Except String Pfx
  pfxIsValid : Pfx → Bool
  pfxAddr : Pfx → Addr
  pfxBits : Pfx → Nat
  parseAddr : String → Except String Addr
  addrIsValid : Addr → Bool
  marshalBinary : Addr → Except String (List Nat)
  addrString : Addr → String
  is4 : Addr → Bool

/-- The eight bits of a byte, most significant first. -/
def byteToBits (b : Nat) : List Bool :=
  [b / 128 % 2 == 1, b / 64 % 2 == 1, b / 32 % 2 == 1, b / 16 % 2 == 1,
   b / 8 % 2 == 1, b / 4 % 2 == 1, b / 2 % 2 == 1, b % 2 == 1]

/-- Modelled from the spec: `bitslice.NewFromBytes` (the package
`pkg/routesum/bitslice` is not included under `src/`).  Per §4.1 of the
spec it constructs, from a fixed-width byte buffer, a bit-sequence of
length 8×byte-count, and "fails only if the buffer is empty when a
non-empty sequence is required". -/
def newFromBytes (bytes : List Nat) : Except String (List Bool) :=
  if bytes.isEmpty then .error "no bytes given"
  else .ok (bytes.flatMap byteToBits)

/-- `func ipBitsForIPPrefix(ipPrefix netip.Prefix)`: marshal the address
to bytes, convert to bits, and truncate to the prefix length. -/
def ipBitsForIPPrefix {Pfx Addr : Type} (api : NetipApi Pfx Addr) (ipPrefix : Pfx) :
    Except String (List Bool) :=
  match api.marshalBinary (api.pfxAddr ipPrefix) with
  | .error e => .error ("express " ++ api.addrString (api.pfxAddr ipPrefix)
      ++ " as bytes: " ++ e)
  | .ok ipBytes =>
    match newFromBytes ipBytes with
    | .error e => .error ("express " ++ api.addrString (api.pfxAddr ipPrefix)
        ++ " as bits: " ++ e)
    | .ok ipBits => .ok (ipBits.take (api.pfxBits ipPrefix))

/-- `func ipBitsForIP(ip netip.Addr)`. -/
def ipBitsForIP {Pfx Addr : Type} (api : NetipApi Pfx Addr) (ip : Addr) :
    Except String (List Bool) :=
  match api.marshalBinary ip with
  | .error e => .error ("express " ++ api.addrString ip ++ " as bytes: " ++ e)
  | .ok ipBytes =>
    match newFromBytes ipBytes with
    | .error e => .error ("express " ++ api.addrString ip ++ " as bits: " ++ e)
    | .ok ipBits => .ok ipBits

/-- `strings.Contains(s, "/")`: the separator is a single character, so
containment of the substring "/" is containment of the character. -/
def containsSlash (s : String) : Bool :=
  s.data.contains '/'

/-- `func (rs *RouteSum) InsertFromString(s string) error`, in explicit
state-passing form: the returned `RouteSum` is the state of the two
tries after the call (the source mutates `rs` in place), and the
`Option String` is the returned error.  Every error path returns before
any `InsertRoute` call, as in the source. -/
def insertFromString {Pfx Addr : Type} (api : NetipApi Pfx Addr) (rs : RouteSum)
    (s : String) : RouteSum × Option String :=
  if containsSlash s then
    match api.parsePfx s with
    | .error e => (rs, some ("parse network: " ++ e))
    | .ok ipPrefix =>
      if !(api.pfxIsValid ipPrefix) then (rs, some (s ++ " is not valid CIDR"))
      else
        match ipBitsForIPPrefix api ipPrefix with
        | .error e => (rs, some e)
        | .ok ipBits =>
          if api.is4 (api.pfxAddr ipPrefix) then
            ({ rs with ipv4 := insertRoute rs.ipv4 ipBits }, none)
          else
            ({ rs with ipv6 := insertRoute rs.ipv6 ipBits }, none)
  else
    match api.parseAddr s with
    | .error e => (rs, some ("parse IP: " ++ e))
    | .ok ip =>
      if !(api.addrIsValid ip) then (rs, some (s ++ " is not a valid IP"))
      else
        match ipBitsForIP api ip with
        | .error e => (rs, some e)
        | .ok ipBits =>
          if api.is4 ip then
            ({ rs with ipv4 := insertRoute rs.ipv4 ipBits }, none)
          else
            ({ rs with ipv6 := insertRoute rs.ipv6 ipBits }, none)

theorem insertFromString_cases {Pfx Addr : Type} (api : NetipApi Pfx Addr)
    (rs : RouteSum) (s : String) :
    (insertFromString api rs s).2 = none ∨ (insertFromString api rs s).1 = rs := by
  unfold insertFromString
  by_cases hs : containsSlash s
  · simp only [hs, if_true]
    rcases api.parsePfx s with eS | ipPrefix
    · exact Or.inr (by trivial)
    · by_cases hv : api.pfxIsValid ipPrefix
      · simp only [hv, Bool.not_true, Bool.false_eq_true, if_false]
        rcases ipBitsForIPPrefix api ipPrefix with eS | ipBits
        · exact Or.inr (by trivial)
        · by_cases h4 : api.is4 (api.pfxAddr ipPrefix)
          · simp only [h4, if_true]
            exact Or.inl (by trivial)
          · simp only [h4, Bool.false_eq_true, if_false]
            exact Or.inl (by trivial)
      · simp only [hv, Bool.not_false, if_true]
        exact Or.inr (by trivial)
  · simp only [hs, Bool.false_eq_true, if_false]
    rcases api.parseAddr s with eS | ip
    · exact Or.inr (by trivial)
    · by_cases hv : api.addrIsValid ip
      · simp only [hv, Bool.not_true, Bool.false_eq_true, if_false]
        rcases ipBitsForIP api ip with eS | ipBits
        · exact Or.inr (by trivial)
        · by_cases h4 : api.is4 ip
          · simp only [h4, if_true]
            exact Or.inl (by trivial)
          · simp only [h4, Bool.false_eq_true, if_false]
            exact Or.inl (by trivial)
      · simp only [hv, Bool.not_false, if_true]
        exact Or.inr (by trivial)

/-- C9: whenever `InsertFromString` returns an error — whatever the
external parsing layer does — neither trie held by the `RouteSum` is
modified: no partial insert occurs. -/
theorem c9_error_leaves_tries_unchanged {Pfx Addr : Type} (api : NetipApi Pfx Addr)
    (rs : RouteSum) (s : String) (e : String)
    (herr : (insertFromString api rs s).2 = some e) :
    (insertFromString api rs s).1 = rs := by
  rcases insertFromString_cases api rs s with h | h
  · rw [h] at herr
    cases herr
  · exact h

/-- A parsing layer whose parse functions always fail, used to exercise
`c9_error_leaves_tries_unchanged` at a concrete input. -/
def failingApi : NetipApi Unit Unit where
  parsePfx := fun _ => .error "bad"
  pfxIsValid := fun _ => true
  pfxAddr := fun _ => ()
  pfxBits := fun _ => 0
  parseAddr := fun _ => .error "bad"
  addrIsValid := fun _ => true
  marshalBinary := fun _ => .ok [0]
  addrString := fun _ => "x"
  is4 := fun _ => true

theorem c9_error_leaves_tries_unchanged_witness :
    (insertFromString failingApi ⟨none, none⟩ "10").2 = some "parse IP: bad" ∧
    (insertFromString failingApi ⟨none, none⟩ "10").1 = (⟨none, none⟩ : RouteSum) :=
  ⟨rfl, c9_error_leaves_tries_unchanged failingApi ⟨none, none⟩ "10" "parse IP: bad" rfl⟩
